import Mathlib

/-!
Verification of `0x00-personal_data/filtered_logger.py`.

The redaction routine `filter_datum` runs, for each requested field, one
`re.sub(field + "=[^" + separator + "]*", field + "=" + redaction, message)`
pass over the accumulating message.  Strings are modelled as `List Char`.
The regex engine's behaviour on these patterns is embedded directly:

* the pattern `field=[^sep]*` anchored at a position means: the literal
  characters of `field` followed by `'='`, followed by the longest run of
  characters that are not in the separator string (a character class is a
  set of banned characters here; class metacharacters such as `-` ranges
  or a leading `]` are outside the scope of this model, and the repository
  only ever passes the one-character separator `";"`);
* `re.sub` rewrites non-overlapping matches left to right, resuming after
  the end of each match;
* fields are assumed spliced literally, which is faithful whenever the
  field text contains no regex metacharacter.  Every universally quantified
  theorem below restricts its domain to this faithful fragment through
  explicit hypotheses (`regexLiteralChar` on field characters,
  `classLiteralChar` on a nonempty separator, a backslash-free redaction);
  concrete theorems use only such instances.  Compile-time failures of
  `re.compile` for metacharacter-bearing fields or ill-formed classes are
  modelled separately by `patternOk` / `filter_datum_exc` below.
-/

namespace FilteredLogger

/-- Character list of a string literal; log messages are modelled as `List Char`. -/
def str (s : String) : List Char := s.data

/-- Boolean test that `p` occurs at the head of `l`: anchoring the literal part
of the pattern at one scan position. -/
def beginsWith : List Char → List Char → Bool
  | [], _ => true
  | _ :: _, [] => false
  | a :: as, b :: bs => if a = b then beginsWith as bs else false

/-- Remainder of the message after the greedy `[^sep]*` value run: everything up
to (and keeping) the first character of the separator set, or nothing if no
separator character follows.  This set reading of the class `[^sep]` is
faithful to Python exactly when every separator character is a plain class
member (no `-` ranges, no `]` or `\`) — the hypothesis `classLiteralChar`
carried by the general theorems. -/
def dropValue (sep : List Char) : List Char → List Char
  | [] => []
  | c :: cs => if c ∈ sep then c :: cs else dropValue sep cs

theorem dropValue_length_le (sep : List Char) : ∀ l : List Char, (dropValue sep l).length ≤ l.length := by
  intro l
  induction l with
  | nil => simp [dropValue]
  | cons c cs ih =>
    by_cases h : c ∈ sep
    · simp [dropValue, h]
    · simp only [dropValue, if_neg h]
      exact Nat.le_succ_of_le ih

/-- One pass of `re.sub(field + "=[^" + sep + "]*", field + "=" + red, ·)`,
with explicit fuel (the fuel is always instantiated with the message length,
which bounds the number of scan steps).  At each position: if the literal
`field=` matches, emit `field=` followed by the redaction, skip the greedy
value run, and resume at the following separator; otherwise copy one
character.  The field is treated as literal text and the redaction is
inserted verbatim, which matches `re.sub` exactly when every field character
is `regexLiteralChar`, every separator character is `classLiteralChar` with
the separator nonempty, and the redaction contains no backslash; every
universally quantified theorem below restricts itself to that fragment, and
concrete theorems use only such instances. -/
def substFuel (field red sep : List Char) : Nat → List Char → List Char
  | 0, l => l
  | _ + 1, [] => []
  | fuel + 1, c :: cs =>
    if beginsWith (field ++ ['=']) (c :: cs) then
      field ++ '=' :: (red ++ substFuel field red sep fuel (dropValue sep (cs.drop field.length)))
    else
      c :: substFuel field red sep fuel cs

/-- One `re.sub` pass of the loop body of `filter_datum`. -/
def subst (field red sep msg : List Char) : List Char :=
  substFuel field red sep msg.length msg

/-- Embedding of `filter_datum(fields, redaction, message, separator)`: the
source iterates `message = re.sub(f"{field}=[^{separator}]*",
f"{field}={redaction}", message)` over `fields`. -/
def filter_datum (fields : List (List Char)) (redaction message separator : List Char) : List Char :=
  fields.foldl (fun m f => subst f redaction separator m) message

/-- A character that Python's regex engine treats as a literal outside a
character class.  The universally quantified theorems below carry the
hypothesis that every field character is such a literal: only then does the
spliced pattern `f"{field}=[^{separator}]*"` match the field text verbatim
(a metacharacter such as `.` or `|` changes the match, and an unbalanced one
such as `(` raises `re.error`; both are outside this embedding's scope). -/
def regexLiteralChar (c : Char) : Bool :=
  !(['\\', '(', ')', '[', ']', '^', '$', '.', '|', '?', '*', '+', '\x7b', '\x7d'].contains c)

/-- A character that stands for itself inside the negated character class
`[^…]`: `]` would close the class, `\` escapes, and `-` forms a range (for
example `[^a-z]` bans a whole range, not the three characters `a`, `-`,
`z`).  The universally quantified theorems require every separator character
to satisfy this and the separator to be nonempty; only then does
`[^separator]` denote exactly the set of the separator's characters, which
is what `dropValue` implements. -/
def classLiteralChar (c : Char) : Bool :=
  !([']', '\\', '-'].contains c)

theorem beginsWith_iff (p : List Char) : ∀ l, beginsWith p l = true ↔ p <+: l := by
  induction p with
  | nil => intro l; simp [beginsWith, List.nil_prefix]
  | cons a as ih =>
    intro l
    cases l with
    | nil =>
      simp only [beginsWith]
      constructor
      · intro h; cases h
      · intro h; exact absurd (List.eq_nil_of_prefix_nil h) (by simp)
    | cons b bs =>
      simp only [beginsWith]
      by_cases hab : a = b
      · subst hab
        rw [if_pos rfl, ih bs]
        exact ⟨fun h => List.cons_prefix_cons.mpr ⟨rfl, h⟩, fun h => (List.cons_prefix_cons.mp h).2⟩
      · rw [if_neg hab]
        constructor
        · intro h; cases h
        · intro h; exact absurd (List.cons_prefix_cons.mp h).1 hab

theorem substFuel_nil (field red sep : List Char) (fuel : Nat) :
    substFuel field red sep fuel [] = [] := by
  cases fuel <;> rfl

theorem substFuel_fuel_irrel (field red sep : List Char) :
    ∀ fuel₁ fuel₂ l, l.length ≤ fuel₁ → l.length ≤ fuel₂ →
      substFuel field red sep fuel₁ l = substFuel field red sep fuel₂ l := by
  intro fuel₁
  induction fuel₁ with
  | zero =>
    intro fuel₂ l hl₁ _
    rw [List.length_eq_zero.mp (Nat.le_zero.mp hl₁)]
    rw [substFuel_nil, substFuel_nil]
  | succ n ih =>
    intro fuel₂ l hl₁ hl₂
    cases l with
    | nil => rw [substFuel_nil, substFuel_nil]
    | cons c cs =>
      cases fuel₂ with
      | zero => exact absurd hl₂ (by simp)
      | succ k =>
        simp only [substFuel]
        by_cases h : beginsWith (field ++ ['=']) (c :: cs) = true
        · rw [if_pos h, if_pos h]
          have hd : (dropValue sep (cs.drop field.length)).length ≤ cs.length := by
            calc (dropValue sep (cs.drop field.length)).length
                ≤ (cs.drop field.length).length := dropValue_length_le _ _
              _ ≤ cs.length := by simp
          have hcs₁ : cs.length ≤ n := by simpa using hl₁
          have hcs₂ : cs.length ≤ k := by simpa using hl₂
          rw [ih _ _ (le_trans hd hcs₁) (le_trans hd hcs₂)]
        · rw [if_neg h, if_neg h]
          have hcs₁ : cs.length ≤ n := by simpa using hl₁
          have hcs₂ : cs.length ≤ k := by simpa using hl₂
          rw [ih _ _ hcs₁ hcs₂]

theorem subst_nil (field red sep : List Char) : subst field red sep [] = [] := rfl

theorem subst_cons_pos (field red sep : List Char) (c : Char) (cs : List Char)
    (h : beginsWith (field ++ ['=']) (c :: cs) = true) :
    subst field red sep (c :: cs) =
      field ++ '=' :: (red ++ subst field red sep (dropValue sep (cs.drop field.length))) := by
  show substFuel field red sep (cs.length + 1) (c :: cs) = _
  simp only [substFuel, if_pos h]
  congr 3
  apply substFuel_fuel_irrel
  · calc (dropValue sep (cs.drop field.length)).length
        ≤ (cs.drop field.length).length := dropValue_length_le _ _
      _ ≤ cs.length := by simp
  · exact le_rfl

theorem subst_cons_neg (field red sep : List Char) (c : Char) (cs : List Char)
    (h : beginsWith (field ++ ['=']) (c :: cs) = false) :
    subst field red sep (c :: cs) = c :: subst field red sep cs := by
  show substFuel field red sep (cs.length + 1) (c :: cs) = _
  simp only [substFuel, h]
  rfl

theorem filter_datum_single (f red msg sep : List Char) :
    filter_datum [f] red msg sep = subst f red sep msg := rfl

theorem dropValue_sepFree_nil (sep : List Char) :
    ∀ l, (∀ c ∈ l, c ∉ sep) → dropValue sep l = [] := by
  intro l
  induction l with
  | nil => intro _; rfl
  | cons c cs ih =>
    intro h
    have hc : c ∉ sep := h c (by simp)
    simp only [dropValue, if_neg hc]
    exact ih (fun d hd => h d (by simp [hd]))

theorem dropValue_append_sepFree (sep a b : List Char) (ha : ∀ c ∈ a, c ∉ sep) :
    dropValue sep (a ++ b) = dropValue sep b := by
  induction a with
  | nil => rfl
  | cons c a' ih =>
    have hc : c ∉ sep := ha c (by simp)
    simp only [List.cons_append, dropValue, if_neg hc]
    exact ih (fun d hd => ha d (by simp [hd]))

theorem dropValue_cons_mem (sep b : List Char) (s : Char) (hs : s ∈ sep) :
    dropValue sep (s :: b) = s :: b := by
  simp [dropValue, hs]

theorem beginsWith_self_append (p t : List Char) : beginsWith p (p ++ t) = true :=
  (beginsWith_iff p (p ++ t)).mpr ⟨t, rfl⟩

/-- The matched case of one scan step: at a position where `field=` occurs, the
value run is skipped and replaced by the redaction. -/
theorem subst_match (field red sep w : List Char) :
    subst field red sep (field ++ '=' :: w) =
      field ++ '=' :: (red ++ subst field red sep (dropValue sep w)) := by
  cases field with
  | nil =>
    have hb : beginsWith ([] ++ ['=']) ('=' :: w) = true := beginsWith_self_append ['='] w
    simpa using subst_cons_pos [] red sep '=' w hb
  | cons a f' =>
    have hb : beginsWith ((a :: f') ++ ['=']) (a :: (f' ++ '=' :: w)) = true := by
      have := beginsWith_self_append ((a :: f') ++ ['=']) w
      simpa using this
    have h := subst_cons_pos (a :: f') red sep a (f' ++ '=' :: w) hb
    have hdrop : (f' ++ '=' :: w).drop (a :: f').length = w := by
      have : f' ++ '=' :: w = (f' ++ ['=']) ++ w := by simp
      rw [this]
      have hlen : (f' ++ ['=']).length = (a :: f').length := by simp
      rw [← hlen]
      exact List.drop_left _ _
    rw [hdrop] at h
    simpa using h

/-! ### C1: literal scenario 1 -/

/-- C1.  On the concrete message `name=John;email=john@x.com;phone=555;` with
fields `name` and `email`, token `***` and separator `";"`, `filter_datum`
returns `name=***;email=***;phone=555;`: both selected fields are redacted and
the non-selected `phone` keeps its value. -/
theorem filter_datum_scenario1 :
    filter_datum [str "name", str "email"] (str "***")
      (str "name=John;email=john@x.com;phone=555;") (str ";")
      = str "name=***;email=***;phone=555;" := by decide

/-! ### C8: empty field list is the identity -/

/-- C8.  With an empty field list, `filter_datum` is the identity transform on
every message, for every redaction token and separator. -/
theorem filter_datum_nil_fields_id (red msg sep : List Char) :
    filter_datum [] red msg sep = msg := rfl

/-! ### C10: sequential per-field substitution -/

/-- C10.  `filter_datum` processes its field list sequentially, left to right:
running it on `f :: rest` is running the single-field substitution for `f`
first and then running the remaining fields on the accumulated result. -/
theorem filter_datum_sequential (f : List Char) (rest : List (List Char))
    (red msg sep : List Char) :
    filter_datum (f :: rest) red msg sep
      = filter_datum rest red (filter_datum [f] red msg sep) sep := rfl

/-! ### C2: field-name matching is substring-based, not exact-field -/

/-- C2 counterexample.  The regex `name=[^;]*` matches *inside* `username=bob`
(the claim asserts a field `name` must not match there), so the value `bob` is
redacted: the claimed exact-field matching does not hold. -/
theorem filter_datum_substring_match :
    filter_datum [str "name"] (str "***") (str "username=bob") (str ";")
        = str "username=***"
      ∧ str "username=***" ≠ str "username=bob" := by decide

theorem subst_no_occ (field red sep m : List Char)
    (h : ¬ (field ++ ['=']) <:+: m) : subst field red sep m = m := by
  induction m with
  | nil => exact subst_nil _ _ _
  | cons c cs ih =>
    by_cases hb : beginsWith (field ++ ['=']) (c :: cs) = true
    · rcases (beginsWith_iff _ _).mp hb with ⟨t, ht⟩
      exact absurd ⟨[], t, by simpa using ht⟩ h
    · rw [subst_cons_neg field red sep c cs (by simpa using hb)]
      rw [ih (fun hinf => h (by
        rcases hinf with ⟨u, t, hut⟩
        exact ⟨c :: u, t, by simp [← hut]⟩))]

/-- C2 amended.  Within the regex-faithful fragment — every field character a
regex literal, a nonempty separator of plain class characters, a
backslash-free redaction; outside it the spliced pattern changes meaning
(e.g. field `a.b` matches `axb`) or raises `re.error` — matching is
case-sensitive but substring-based: a value is replaced exactly where the
field name followed by `=` occurs as a substring of the message.  In
particular, whenever no `field=` occurs as a substring (for instance when
only an upper-case spelling of a lower-case field is present), the message is
returned unchanged. -/
theorem filter_datum_no_occurrence_id (fields : List (List Char)) (red m sep : List Char)
    (_hfsafe : ∀ f ∈ fields, ∀ c ∈ f, regexLiteralChar c = true)
    (_hsepne : sep ≠ []) (_hsepc : ∀ c ∈ sep, classLiteralChar c = true)
    (_hredsafe : '\\' ∉ red)
    (h : ∀ f ∈ fields, ¬ (f ++ ['=']) <:+: m) :
    filter_datum fields red m sep = m := by
  clear _hfsafe _hsepne _hsepc _hredsafe
  induction fields with
  | nil => rfl
  | cons f fs ih =>
    have hstep : filter_datum (f :: fs) red m sep
        = filter_datum fs red (subst f red sep m) sep := rfl
    rw [hstep, subst_no_occ f red sep m (h f (by simp))]
    exact ih (fun g hg => h g (by simp [hg]))

theorem filter_datum_no_occurrence_id_witness :
    (∀ f ∈ [str "name"], ¬ (f ++ ['=']) <:+: str "NAME=bob")
      ∧ filter_datum [str "name"] (str "***") (str "NAME=bob") (str ";") = str "NAME=bob" :=
  ⟨by decide, filter_datum_no_occurrence_id [str "name"] (str "***") (str "NAME=bob")
    (str ";") (by decide) (by decide) (by decide) (by decide) (by decide)⟩

/-! ### C5: value capture stops at the separator or at end of string -/

/-- C5.  End of string is an implicit value boundary: a matched value run stops
at the first separator character or at the end of the message.  First
conjunct: with a separator present, everything from the separator on is left
for independent processing (a value capture never consumes a following
`field=value` pair).  Second conjunct: with no trailing separator the value
runs to the end of the string and is still replaced.  Third conjunct: the
literal scenario `filter_datum("password=abc", ["password"], "***", ";") =
"password=***"`.  The general conjuncts are stated on the regex-faithful
fragment (regex-literal field, nonempty plain-class separator, backslash-free
redaction), where "matched value run" is exactly what the compiled pattern
does. -/
theorem filter_datum_value_boundary (f red v rest sep : List Char) (s : Char)
    (_hfsafe : ∀ c ∈ f, regexLiteralChar c = true)
    (_hsepne : sep ≠ []) (_hsepc : ∀ c ∈ sep, classLiteralChar c = true)
    (_hredsafe : '\\' ∉ red)
    (hv : ∀ c ∈ v, c ∉ sep) (hs : s ∈ sep) :
    (filter_datum [f] red (f ++ '=' :: (v ++ s :: rest)) sep
        = f ++ '=' :: (red ++ filter_datum [f] red (s :: rest) sep))
      ∧ filter_datum [f] red (f ++ '=' :: v) sep = f ++ '=' :: red
      ∧ filter_datum [str "password"] (str "***") (str "password=abc") (str ";")
          = str "password=***" := by
  refine ⟨?_, ?_, by decide⟩
  · rw [filter_datum_single, filter_datum_single, subst_match,
      dropValue_append_sepFree sep v (s :: rest) hv, dropValue_cons_mem sep rest s hs]
  · rw [filter_datum_single, subst_match, dropValue_sepFree_nil sep v hv,
      subst_nil]
    simp

theorem filter_datum_value_boundary_witness :
    ((filter_datum [str "user"] (str "X") (str "user" ++ '=' :: (str "bob" ++ ';' :: str "pw=1")) (str ";")
        = str "user" ++ '=' :: (str "X" ++ filter_datum [str "user"] (str "X") (';' :: str "pw=1") (str ";")))
      ∧ filter_datum [str "user"] (str "X") (str "user" ++ '=' :: str "bob") (str ";")
          = str "user" ++ '=' :: str "X"
      ∧ filter_datum [str "password"] (str "***") (str "password=abc") (str ";")
          = str "password=***") :=
  filter_datum_value_boundary (str "user") (str "X") (str "bob") (str "pw=1")
    (str ";") ';' (by decide) (by decide) (by decide) (by decide) (by decide) (by decide)

/-! ### C3: the redactor is not total — pattern compilation can fail

The source splices each field name and the separator verbatim into the regex
`f"{field}=[^{separator}]*"`, so `re.sub` first *compiles* that text.  The
scanner below models the compile-time well-formedness checks of Python's
regex parser that these patterns can trip: unbalanced parentheses
(`missing ), unterminated subpattern` / `unbalanced parenthesis`),
unterminated character classes (`unterminated character set`, including the
`]`-immediately-after-`[^` literal rule, which makes the empty separator's
`[^]*` unterminated), and a trailing escape.  Other compile errors (bad
quantifier placement, bad escape contents, group syntax) are not modelled;
the theorems below only ever conclude success for fields made of
metacharacter-free text, where none of those can occur. -/

inductive PatState
  | norm | escNorm | classStart | classStartNeg | classBody | escClass
deriving DecidableEq

/-- Well-formedness scan of a regex pattern: tracks group depth, character
classes and escapes.  Accepts exactly when every group is closed, no class is
left open and no escape dangles. -/
def patScan : List Char → Nat → PatState → Bool
  | [], depth, .norm => depth == 0
  | [], _, _ => false
  | c :: cs, depth, .norm =>
    if c = '\\' then patScan cs depth .escNorm
    else if c = '(' then patScan cs (depth + 1) .norm
    else if c = ')' then
      match depth with
      | 0 => false
      | d + 1 => patScan cs d .norm
    else if c = '[' then patScan cs depth .classStart
    else patScan cs depth .norm
  | _ :: cs, depth, .escNorm => patScan cs depth .norm
  | c :: cs, depth, .classStart =>
    if c = '^' then patScan cs depth .classStartNeg
    else if c = '\\' then patScan cs depth .escClass
    else patScan cs depth .classBody
  | c :: cs, depth, .classStartNeg =>
    if c = '\\' then patScan cs depth .escClass
    else patScan cs depth .classBody
  | c :: cs, depth, .classBody =>
    if c = ']' then patScan cs depth .norm
    else if c = '\\' then patScan cs depth .escClass
    else patScan cs depth .classBody
  | _ :: cs, depth, .escClass => patScan cs depth .classBody

/-- The pattern text `f"{field}=[^{separator}]*"` built by `filter_datum`. -/
def fieldPattern (field sep : List Char) : List Char :=
  field ++ str "=[^" ++ sep ++ str "]*"

def patternOk (p : List Char) : Bool := patScan p 0 .norm

/-- Refinement of `filter_datum` exposing the exception channel of `re.sub`:
each loop iteration first compiles its pattern and raises `re.error` when the
spliced field or separator makes it ill-formed (modelled by `patternOk`),
aborting the loop.  `re.sub` also parses the replacement template eagerly —
a backslash in the redaction can raise `re.error` even when nothing matches —
and that error path is not modelled here: the template is inserted literally,
which is faithful exactly for backslash-free redactions, the only ones the
theorems below speak about. -/
def filter_datum_exc : List (List Char) → List Char → List Char → List Char → Except Unit (List Char)
  | [], _, msg, _ => .ok msg
  | f :: fs, red, msg, sep =>
    if patternOk (fieldPattern f sep) then
      filter_datum_exc fs red (subst f red sep msg) sep
    else .error ()

/-- C3 counterexample.  The redactor is not total over all field strings: the
field `"("` yields the pattern `(=[^;]*` whose group is never closed, so
`re.sub` raises `re.error` (Python: `missing ), unterminated subpattern`)
instead of returning a string.  The empty separator likewise yields the
unterminated class `[^]*`. -/
theorem filter_datum_exc_raises_on_paren_field :
    filter_datum_exc [str "("] (str "***") (str "a=b") (str ";") = .error ()
      ∧ filter_datum_exc [str "a"] (str "***") (str "a=b") [] = .error () := ⟨rfl, rfl⟩

theorem patScan_lit_append (f : List Char) (hf : ∀ c ∈ f, regexLiteralChar c = true) :
    ∀ rest, patScan (f ++ rest) 0 .norm = patScan rest 0 .norm := by
  induction f with
  | nil => intro rest; rfl
  | cons c f' ih =>
    intro rest
    have hc : regexLiteralChar c = true := hf c (by simp)
    have h1 : c ≠ '\\' := by intro h; subst h; simp [regexLiteralChar] at hc
    have h2 : c ≠ '(' := by intro h; subst h; simp [regexLiteralChar] at hc
    have h3 : c ≠ ')' := by intro h; subst h; simp [regexLiteralChar] at hc
    have h4 : c ≠ '[' := by intro h; subst h; simp [regexLiteralChar] at hc
    simp only [List.cons_append, patScan, if_neg h1, if_neg h2, if_neg h3, if_neg h4]
    exact ih (fun d hd => hf d (by simp [hd])) rest

theorem patScan_classBody_append (l : List Char) (hl : ∀ c ∈ l, c ≠ ']' ∧ c ≠ '\\') :
    ∀ rest, patScan (l ++ rest) 0 .classBody = patScan rest 0 .classBody := by
  induction l with
  | nil => intro rest; rfl
  | cons c l' ih =>
    intro rest
    have hc := hl c (by simp)
    simp only [List.cons_append, patScan, if_neg hc.1, if_neg hc.2]
    exact ih (fun d hd => hl d (by simp [hd])) rest

theorem patternOk_of_safe (f sep : List Char)
    (hf : ∀ c ∈ f, regexLiteralChar c = true)
    (hsep : sep ≠ []) (hsepc : ∀ c ∈ sep, c ≠ ']' ∧ c ≠ '\\') :
    patternOk (fieldPattern f sep) = true := by
  unfold patternOk fieldPattern
  rw [List.append_assoc, List.append_assoc, patScan_lit_append f hf]
  cases sep with
  | nil => exact absurd rfl hsep
  | cons s₀ sep' =>
    have hs₀ := hsepc s₀ (by simp)
    show patScan ('=' :: '[' :: '^' :: (s₀ :: sep' ++ str "]*")) 0 .norm = true
    have e1 : patScan ('=' :: '[' :: '^' :: (s₀ :: sep' ++ str "]*")) 0 .norm
        = patScan (sep' ++ str "]*") 0 .classBody := by
      simp only [patScan, List.cons_append, if_neg hs₀.2]
      rfl
    rw [e1, patScan_classBody_append sep' (fun d hd => hsepc d (by simp [hd]))]
    rfl

/-- C3 amended.  The redactor is total only on regex-safe inputs: whenever
every character of every field is a regex literal (no metacharacters), the
separator is nonempty and every separator character is a plain class member
(no `]`, `\` or `-`, so the class is the set of those characters and not a
range), and the redaction contains no backslash (so the replacement template
parses), no exception is raised and the result is the plain substitution
result.  For other inputs `re.sub` can raise `re.error` — at pattern-compile
time (see the counterexample: field `"("`, or an empty separator) or when
parsing a backslash-bearing replacement template. -/
theorem filter_datum_exc_total_on_safe (fields : List (List Char)) (red msg sep : List Char)
    (hf : ∀ f ∈ fields, ∀ c ∈ f, regexLiteralChar c = true)
    (hsep : sep ≠ []) (hsepc : ∀ c ∈ sep, classLiteralChar c = true)
    (_hredsafe : '\\' ∉ red) :
    filter_datum_exc fields red msg sep = .ok (filter_datum fields red msg sep) := by
  have hsepc' : ∀ c ∈ sep, c ≠ ']' ∧ c ≠ '\\' := by
    intro c hc
    have h2 := hsepc c hc
    refine ⟨fun he => ?_, fun he => ?_⟩ <;> (subst he; exact absurd h2 (by decide))
  clear hsepc _hredsafe
  induction fields generalizing msg with
  | nil => rfl
  | cons f fs ih =>
    show (if patternOk (fieldPattern f sep) then _ else _) = _
    rw [if_pos (patternOk_of_safe f sep (hf f (by simp)) hsep hsepc')]
    rw [ih (subst f red sep msg) (fun g hg => hf g (by simp [hg]))]
    rfl

theorem filter_datum_exc_total_on_safe_witness :
    ((∀ f ∈ [str "ssn"], ∀ c ∈ f, regexLiteralChar c = true)
        ∧ str ";" ≠ ([] : List Char) ∧ (∀ c ∈ str ";", classLiteralChar c = true)
        ∧ '\\' ∉ str "***")
      ∧ filter_datum_exc [str "ssn"] (str "***") (str "ssn=1;") (str ";")
          = .ok (filter_datum [str "ssn"] (str "***") (str "ssn=1;") (str ";")) :=
  ⟨⟨by decide, by decide, by decide, by decide⟩,
    filter_datum_exc_total_on_safe [str "ssn"] (str "***") (str "ssn=1;") (str ";")
      (by decide) (by decide) (by decide) (by decide)⟩

/-! ### The formatter: `RedactingFormatter` over `logging.LogRecord`

`logging.Formatter.format(record)` (the `super().format(record)` call) first
sets `record.message = record.getMessage()` and — since the format string
contains `%(asctime)s` — `record.asctime = self.formatTime(record, ...)`,
then renders the template.  The time formatter is an external collaborator:
it is modelled as an arbitrary function `ft` from the record's creation stamp
(modelled as a `Nat`) to text.  `record.args` interpolation is not modelled:
the records in the spec's scenarios carry no arguments, so `getMessage`
returns the message text itself.  The `message`/`asctime` attributes are
unset on a fresh record, modelled by `Option`. -/

structure LogRecord where
  name : List Char
  levelname : List Char
  created : Nat
  msg : List Char
  message : Option (List Char)
  asctime : Option (List Char)
deriving DecidableEq

/-- Embedding of `record.getMessage()` for records without `args`. -/
def getMessage (r : LogRecord) : List Char := r.msg

/-- The `%(asctime)-15s` conversion: left-justified, padded to width 15. -/
def padTo15 (s : List Char) : List Char := s ++ List.replicate (15 - s.length) ' '

def RedactingFormatter.REDACTION : List Char := str "***"

def RedactingFormatter.SEPARATOR : List Char := str ";"

/-- The line rendered by the base formatter from the template
`"[HOLBERTON] %(name)s %(levelname)s %(asctime)-15s: %(message)s"`. -/
def baseRender (ft : Nat → List Char) (r : LogRecord) : List Char :=
  str "[HOLBERTON] " ++ r.name ++ str " " ++ r.levelname ++ str " "
    ++ padTo15 (ft r.created) ++ str ": " ++ getMessage r

/-- Embedding of `logging.Formatter.format`: returns the rendered line and
the record as mutated by the call. -/
def baseFormat (ft : Nat → List Char) (r : LogRecord) : List Char × LogRecord :=
  (baseRender ft r,
    { r with message := some (getMessage r), asctime := some (ft r.created) })

/-- Embedding of `RedactingFormatter.format`: pipe the base-rendered line
through `filter_datum` with the configured fields, the fixed token and the
fixed separator; the record state change is the base formatter's. -/
def RedactingFormatter.format (ft : Nat → List Char) (fields : List (List Char))
    (r : LogRecord) : List Char × LogRecord :=
  (filter_datum fields RedactingFormatter.REDACTION (baseFormat ft r).1
      RedactingFormatter.SEPARATOR,
    (baseFormat ft r).2)

def PII_FIELDS : List (List Char) :=
  [str "name", str "email", str "phone", str "ssn", str "password"]

/-! ### C6: the formatter is the redactor applied to the fully rendered line -/

/-- C6.  `RedactingFormatter.format` renders the record through the base
template first — interpolating logger name, level, timestamp and message —
and then returns `filter_datum` applied to that entire rendered line with the
configured field list, the fixed token `"***"` and the fixed separator
`";"`. -/
theorem format_is_redacted_render (ft : Nat → List Char) (fields : List (List Char))
    (r : LogRecord) :
    (RedactingFormatter.format ft fields r).1
        = filter_datum fields RedactingFormatter.REDACTION (baseRender ft r)
            RedactingFormatter.SEPARATOR
      ∧ baseRender ft r
          = str "[HOLBERTON] " ++ r.name ++ str " " ++ r.levelname ++ str " "
              ++ padTo15 (ft r.created) ++ str ": " ++ getMessage r
      ∧ RedactingFormatter.REDACTION = str "***"
      ∧ RedactingFormatter.SEPARATOR = str ";"
      ∧ PII_FIELDS = [str "name", str "email", str "phone", str "ssn", str "password"] :=
  ⟨rfl, rfl, rfl, rfl, rfl⟩

/-! ### C9: the record is mutated by the call -/

/-- C9 counterexample.  Formatting is not free of side effects on the record:
`logging.Formatter.format` (invoked via `super().format(record)`) assigns
`record.message` and `record.asctime`, so the record after the call differs
from the record passed in. -/
theorem format_mutates_record :
    (RedactingFormatter.format (fun _ => str "ts") PII_FIELDS
        ⟨str "user_data", str "INFO", 0, str "a=b;", none, none⟩).2
      ≠ ⟨str "user_data", str "INFO", 0, str "a=b;", none, none⟩ := by decide

/-- C9 amended.  The only record state touched by
`RedactingFormatter.format` is the base formatter's: `record.message` is set
to the rendered message and `record.asctime` to the formatted time; the
`name`, `levelname`, `created` and `msg` fields are unchanged, and nothing
else observes or mutates the record. -/
theorem format_record_effect (ft : Nat → List Char) (fields : List (List Char))
    (r : LogRecord) :
    (RedactingFormatter.format ft fields r).2.name = r.name
      ∧ (RedactingFormatter.format ft fields r).2.levelname = r.levelname
      ∧ (RedactingFormatter.format ft fields r).2.created = r.created
      ∧ (RedactingFormatter.format ft fields r).2.msg = r.msg
      ∧ (RedactingFormatter.format ft fields r).2.message = some (getMessage r)
      ∧ (RedactingFormatter.format ft fields r).2.asctime = some (ft r.created) :=
  ⟨rfl, rfl, rfl, rfl, rfl, rfl⟩

/-! ### C7: the formatter scenario

Helper lemmas: a `field=` occurrence starting inside a prefix of the scanned
line is confined to that prefix plus the first `field.length` characters of
the remainder, so when no such occurrence exists the substitution leaves the
prefix untouched and acts on the remainder alone. -/

theorem take_append_take (a b : List Char) (n k : Nat) (h : n ≤ a.length + k) :
    (a ++ b).take n = (a ++ b.take k).take n := by
  rw [List.take_append_eq_append_take, List.take_append_eq_append_take]
  congr 1
  rw [List.take_take]
  congr 1
  omega

/-- If `field=` does not occur starting within `pre` (equivalently, it is not
a substring of `pre` extended by the first `field.length` characters of
`rest`), the substitution distributes: the prefix is copied verbatim. -/
theorem subst_append_pre (field red sep pre rest : List Char)
    (h : ¬ (field ++ ['=']) <:+: (pre ++ rest.take field.length)) :
    subst field red sep (pre ++ rest) = pre ++ subst field red sep rest := by
  induction pre with
  | nil => simp
  | cons c pre' ih =>
    have hb : beginsWith (field ++ ['=']) (c :: (pre' ++ rest)) = false := by
      by_contra hbt
      have hbt' : beginsWith (field ++ ['=']) (c :: (pre' ++ rest)) = true := by
        revert hbt; cases beginsWith (field ++ ['=']) (c :: (pre' ++ rest)) <;> simp
      have hp : (field ++ ['=']) <+: ((c :: pre') ++ rest) := by
        rcases (beginsWith_iff _ _).mp hbt' with ⟨t, ht⟩
        exact ⟨t, by simpa using ht⟩
      have hlen : (field ++ ['=']).length ≤ (c :: pre').length + field.length := by
        simp; omega
      have hp' : (field ++ ['=']) <+: ((c :: pre') ++ rest.take field.length) := by
        rw [List.prefix_iff_eq_take]
        rw [← take_append_take _ _ _ field.length hlen]
        exact List.prefix_iff_eq_take.mp hp
      rcases hp' with ⟨t₂, ht₂⟩
      exact h ⟨[], t₂, by simpa using ht₂⟩
    rw [show (c :: pre') ++ rest = c :: (pre' ++ rest) from rfl,
      subst_cons_neg field red sep c (pre' ++ rest) hb]
    rw [ih (fun hinf => h (by
      rcases hinf with ⟨u, t, hut⟩
      exact ⟨c :: u, t, by simp [← hut]⟩))]
    rfl

/-- A pattern ending in `=` cannot occur in text containing no `=`. -/
theorem no_occ_of_no_eq_char (field E : List Char) (hE : '=' ∉ E) :
    ¬ (field ++ ['=']) <:+: E := by
  rintro ⟨s, t, hst⟩
  apply hE
  rw [← hst]
  simp

theorem split_eq_unique (x : Char) : ∀ (a c b d : List Char), x ∉ a → x ∉ c →
    a ++ x :: b = c ++ x :: d → a = c ∧ b = d := by
  intro a
  induction a with
  | nil =>
    intro c b d _ hc h
    cases c with
    | nil => simpa using h
    | cons e c' =>
      simp only [List.nil_append, List.cons_append, List.cons.injEq] at h
      exact absurd (by simp [h.1] : x ∈ e :: c') hc
  | cons e a' ih =>
    intro c b d ha hc h
    cases c with
    | nil =>
      simp only [List.cons_append, List.nil_append, List.cons.injEq] at h
      exact absurd (by simp [h.1] : x ∈ e :: a') ha
    | cons e' c' =>
      simp only [List.cons_append, List.cons.injEq] at h
      have := ih c' b d (fun hm => ha (by simp [hm])) (fun hm => hc (by simp [hm])) h.2
      exact ⟨by rw [h.1, this.1], this.2⟩

/-- In text `P ++ '=' :: Q` containing a single `=`, an occurrence of
`field=` forces `field` to be a suffix of `P`. -/
theorem no_occ_single_eq (field P Q : List Char) (hf : '=' ∉ field)
    (hfP : ¬ field <:+ P) (hP : '=' ∉ P) (hQ : '=' ∉ Q) :
    ¬ (field ++ ['=']) <:+: (P ++ '=' :: Q) := by
  rintro ⟨s, t, hst⟩
  have hst' : (s ++ field) ++ '=' :: t = P ++ '=' :: Q := by
    rw [← hst]; simp
  have hcnt := congrArg (fun l => List.count '=' l) hst'
  simp only [List.count_append, List.count_cons_self] at hcnt
  have h0 : field.count '=' = 0 := List.count_eq_zero.mpr hf
  have h1 : P.count '=' = 0 := List.count_eq_zero.mpr hP
  have h2 : Q.count '=' = 0 := List.count_eq_zero.mpr hQ
  have hs0 : s.count '=' = 0 := by omega
  have hsf : '=' ∉ s ++ field := by
    intro hm
    rcases List.mem_append.mp hm with hm | hm
    · exact absurd hm (List.count_eq_zero.mp hs0)
    · exact hf hm
  obtain ⟨hPe, _⟩ := split_eq_unique '=' (s ++ field) P t Q hsf hP hst'
  exact hfP ⟨s, hPe⟩

/-- A word cannot be a suffix of a text whose reversal starts with a
different character. -/
theorem no_sfx_of_rev_ne (w E : List Char) (a b : Char) (w' E' : List Char)
    (hw : w.reverse = a :: w') (hE : E.reverse = b :: E') (hab : a ≠ b) :
    ¬ w <:+ E := by
  intro h
  have h2 := List.reverse_prefix.mpr h
  rw [hw, hE] at h2
  exact hab (List.cons_prefix_cons.mp h2).1

set_option maxHeartbeats 1600000 in
/-- Redacting the scenario line: for any base-format prefix containing no
`=` character (timestamp included), the default PII pass rewrites the message
part `ssn=123-45-6789;name=Jane;` to `ssn=***;name=***;` and copies the
prefix verbatim. -/
theorem filter_pii_line (pre : List Char) (hpre : '=' ∉ pre) :
    filter_datum PII_FIELDS (str "***") (pre ++ str "ssn=123-45-6789;name=Jane;") (str ";")
      = pre ++ str "ssn=***;name=***;" := by
  have hP : '=' ∉ pre ++ str "ssn" := by
    intro h
    rcases List.mem_append.mp h with h | h
    · exact hpre h
    · revert h; decide
  have hrev : (pre ++ str "ssn").reverse = 'n' :: ('s' :: 's' :: pre.reverse) := by
    rw [List.reverse_append]; rfl
  have c_name : ¬ (str "name" ++ ['=']) <:+:
      (pre ++ (str "ssn=123-45-6789;name=Jane;").take (str "name").length) := by
    rw [show (str "ssn=123-45-6789;name=Jane;").take (str "name").length
        = str "ssn" ++ '=' :: [] from by decide, ← List.append_assoc]
    exact no_occ_single_eq _ _ _ (by decide)
      (no_sfx_of_rev_ne (str "name") (pre ++ str "ssn") 'e' 'n' (str "man")
        ('s' :: 's' :: pre.reverse) (by decide) hrev (by decide)) hP (by decide)
  have c_email : ¬ (str "email" ++ ['=']) <:+:
      (pre ++ (str "ssn=123-45-6789;name=***;").take (str "email").length) := by
    rw [show (str "ssn=123-45-6789;name=***;").take (str "email").length
        = str "ssn" ++ '=' :: ['1'] from by decide, ← List.append_assoc]
    exact no_occ_single_eq _ _ _ (by decide)
      (no_sfx_of_rev_ne (str "email") (pre ++ str "ssn") 'l' 'n' (str "iame")
        ('s' :: 's' :: pre.reverse) (by decide) hrev (by decide)) hP (by decide)
  have c_phone : ¬ (str "phone" ++ ['=']) <:+:
      (pre ++ (str "ssn=123-45-6789;name=***;").take (str "phone").length) := by
    rw [show (str "ssn=123-45-6789;name=***;").take (str "phone").length
        = str "ssn" ++ '=' :: ['1'] from by decide, ← List.append_assoc]
    exact no_occ_single_eq _ _ _ (by decide)
      (no_sfx_of_rev_ne (str "phone") (pre ++ str "ssn") 'e' 'n' (str "nohp")
        ('s' :: 's' :: pre.reverse) (by decide) hrev (by decide)) hP (by decide)
  have c_ssn : ¬ (str "ssn" ++ ['=']) <:+:
      (pre ++ (str "ssn=123-45-6789;name=***;").take (str "ssn").length) := by
    rw [show (str "ssn=123-45-6789;name=***;").take (str "ssn").length
        = str "ssn" from by decide]
    exact no_occ_of_no_eq_char _ _ hP
  have c_password : ¬ (str "password" ++ ['=']) <:+:
      (pre ++ (str "ssn=***;name=***;").take (str "password").length) := by
    rw [show (str "ssn=***;name=***;").take (str "password").length
        = str "ssn" ++ '=' :: str "***;" from by decide, ← List.append_assoc]
    exact no_occ_single_eq _ _ _ (by decide)
      (no_sfx_of_rev_ne (str "password") (pre ++ str "ssn") 'd' 'n' (str "rowssap")
        ('s' :: 's' :: pre.reverse) (by decide) hrev (by decide)) hP (by decide)
  show subst (str "password") (str "***") (str ";")
      (subst (str "ssn") (str "***") (str ";")
        (subst (str "phone") (str "***") (str ";")
          (subst (str "email") (str "***") (str ";")
            (subst (str "name") (str "***") (str ";")
              (pre ++ str "ssn=123-45-6789;name=Jane;"))))) = _
  rw [subst_append_pre _ _ _ _ _ c_name,
    show subst (str "name") (str "***") (str ";") (str "ssn=123-45-6789;name=Jane;")
      = str "ssn=123-45-6789;name=***;" from by decide]
  rw [subst_append_pre _ _ _ _ _ c_email,
    show subst (str "email") (str "***") (str ";") (str "ssn=123-45-6789;name=***;")
      = str "ssn=123-45-6789;name=***;" from by decide]
  rw [subst_append_pre _ _ _ _ _ c_phone,
    show subst (str "phone") (str "***") (str ";") (str "ssn=123-45-6789;name=***;")
      = str "ssn=123-45-6789;name=***;" from by decide]
  rw [subst_append_pre _ _ _ _ _ c_ssn,
    show subst (str "ssn") (str "***") (str ";") (str "ssn=123-45-6789;name=***;")
      = str "ssn=***;name=***;" from by decide]
  rw [subst_append_pre _ _ _ _ _ c_password,
    show subst (str "password") (str "***") (str ";") (str "ssn=***;name=***;")
      = str "ssn=***;name=***;" from by decide]

theorem format_fst (ft : Nat → List Char) (fields : List (List Char)) (r : LogRecord) :
    (RedactingFormatter.format ft fields r).1
      = filter_datum fields RedactingFormatter.REDACTION (baseRender ft r)
          RedactingFormatter.SEPARATOR := rfl

set_option maxHeartbeats 1600000 in
/-- C7.  For a record with raw message `ssn=123-45-6789;name=Jane;`, logger
name `user_data` and level `INFO`, the formatted line (default PII fields)
contains `ssn=***` and `name=***`, and retains the literal tokens `INFO` and
`user_data` verbatim — for every rendering of the timestamp that contains no
`=` character. -/
theorem format_scenario (ft : Nat → List Char) (r : LogRecord)
    (hn : r.name = str "user_data") (hl : r.levelname = str "INFO")
    (hm : r.msg = str "ssn=123-45-6789;name=Jane;")
    (ht : '=' ∉ ft r.created) :
    (str "ssn=***" <:+: (RedactingFormatter.format ft PII_FIELDS r).1)
      ∧ (str "name=***" <:+: (RedactingFormatter.format ft PII_FIELDS r).1)
      ∧ (str "INFO" <:+: (RedactingFormatter.format ft PII_FIELDS r).1)
      ∧ (str "user_data" <:+: (RedactingFormatter.format ft PII_FIELDS r).1) := by
  have hred : RedactingFormatter.REDACTION = str "***" := rfl
  have hsep : RedactingFormatter.SEPARATOR = str ";" := rfl
  have hbr : baseRender ft r
      = (str "[HOLBERTON] " ++ str "user_data" ++ str " " ++ str "INFO" ++ str " "
          ++ padTo15 (ft r.created) ++ str ": ")
        ++ str "ssn=123-45-6789;name=Jane;" := by
    unfold baseRender getMessage
    rw [hn, hl, hm]
  have hpre : '=' ∉ (str "[HOLBERTON] " ++ str "user_data" ++ str " " ++ str "INFO" ++ str " "
      ++ padTo15 (ft r.created) ++ str ": ") := by
    intro h
    simp only [List.mem_append, padTo15] at h
    rcases h with (((((h | h) | h) | h) | h) | (h | h)) | h
    · revert h; decide
    · revert h; decide
    · revert h; decide
    · revert h; decide
    · revert h; decide
    · exact ht h
    · exact absurd (List.eq_of_mem_replicate h) (by decide)
    · revert h; decide
  have hfmt : (RedactingFormatter.format ft PII_FIELDS r).1
      = (str "[HOLBERTON] " ++ str "user_data" ++ str " " ++ str "INFO" ++ str " "
          ++ padTo15 (ft r.created) ++ str ": ")
        ++ str "ssn=***;name=***;" := by
    rw [format_fst, hred, hsep, hbr, filter_pii_line _ hpre]
  rw [hfmt]
  refine ⟨?_, ?_, ?_, ?_⟩
  · refine ⟨str "[HOLBERTON] " ++ str "user_data" ++ str " " ++ str "INFO" ++ str " "
        ++ padTo15 (ft r.created) ++ str ": ", str ";name=***;", ?_⟩
    simp only [List.append_assoc]
    rw [show str "ssn=***" ++ str ";name=***;" = str "ssn=***;name=***;" from by decide]
  · refine ⟨(str "[HOLBERTON] " ++ str "user_data" ++ str " " ++ str "INFO" ++ str " "
        ++ padTo15 (ft r.created) ++ str ": ") ++ str "ssn=***;", str ";", ?_⟩
    simp only [List.append_assoc]
    rw [show str "name=***" ++ str ";" = str "name=***;" from by decide,
      show str "ssn=***;" ++ str "name=***;" = str "ssn=***;name=***;" from by decide]
  · refine ⟨str "[HOLBERTON] " ++ str "user_data" ++ str " ",
      str " " ++ (padTo15 (ft r.created) ++ (str ": " ++ str "ssn=***;name=***;")), ?_⟩
    simp only [List.append_assoc]
  · refine ⟨str "[HOLBERTON] ",
      str " " ++ (str "INFO" ++ (str " " ++ (padTo15 (ft r.created)
        ++ (str ": " ++ str "ssn=***;name=***;")))), ?_⟩
    simp only [List.append_assoc]

theorem format_scenario_witness :
    (str "ssn=***" <:+: (RedactingFormatter.format (fun _ => str "2019-11-19 18:24:25,105")
        PII_FIELDS ⟨str "user_data", str "INFO", 0, str "ssn=123-45-6789;name=Jane;", none, none⟩).1)
      ∧ (str "name=***" <:+: (RedactingFormatter.format (fun _ => str "2019-11-19 18:24:25,105")
        PII_FIELDS ⟨str "user_data", str "INFO", 0, str "ssn=123-45-6789;name=Jane;", none, none⟩).1)
      ∧ (str "INFO" <:+: (RedactingFormatter.format (fun _ => str "2019-11-19 18:24:25,105")
        PII_FIELDS ⟨str "user_data", str "INFO", 0, str "ssn=123-45-6789;name=Jane;", none, none⟩).1)
      ∧ (str "user_data" <:+: (RedactingFormatter.format (fun _ => str "2019-11-19 18:24:25,105")
        PII_FIELDS ⟨str "user_data", str "INFO", 0, str "ssn=123-45-6789;name=Jane;", none, none⟩).1) :=
  format_scenario _ _ rfl rfl rfl (by decide)

/-! ### C4: idempotence

Tooling for separator-free text: on text containing no separator character, a
match's value run extends to the end of the string, so one `re.sub` pass
rewrites everything from the *first* `field=` occurrence on.  `firstAt pat m`
returns the prefix of `m` before the first occurrence of `pat` (or `none`). -/

def firstAt (pat : List Char) : List Char → Option (List Char)
  | [] => if beginsWith pat [] = true then some [] else none
  | c :: cs =>
    if beginsWith pat (c :: cs) = true then some []
    else (firstAt pat cs).map (fun u => c :: u)

theorem beginsWith_pat_nil (field : List Char) :
    beginsWith (field ++ ['=']) [] = false := by
  cases field <;> rfl

theorem firstAt_of_beginsWith (pat y : List Char) (h : beginsWith pat y = true) :
    firstAt pat y = some [] := by
  cases y with
  | nil => simp [firstAt, h]
  | cons c cs => simp [firstAt, h]

theorem firstAt_some_decomp (pat : List Char) :
    ∀ m u, firstAt pat m = some u → ∃ v, m = u ++ pat ++ v := by
  intro m
  induction m with
  | nil =>
    intro u h
    by_cases hb : beginsWith pat [] = true
    · simp only [firstAt, if_pos hb, Option.some.injEq] at h
      have : pat <+: ([] : List Char) := (beginsWith_iff _ _).mp hb
      have hp : pat = [] := List.eq_nil_of_prefix_nil this
      exact ⟨[], by simp [← h, hp]⟩
    · simp [firstAt, hb] at h
  | cons c cs ih =>
    intro u h
    by_cases hb : beginsWith pat (c :: cs) = true
    · simp only [firstAt, if_pos hb, Option.some.injEq] at h
      rcases (beginsWith_iff _ _).mp hb with ⟨t, ht⟩
      exact ⟨t, by simp [← h, ← ht]⟩
    · simp only [firstAt, if_neg hb, Option.map_eq_some'] at h
      rcases h with ⟨u', hu', rfl⟩
      rcases ih u' hu' with ⟨v, hv⟩
      exact ⟨v, by simp [hv]⟩

theorem firstAt_none_no_occ (pat : List Char) :
    ∀ m, firstAt pat m = none → ¬ pat <:+: m := by
  intro m
  induction m with
  | nil =>
    intro h
    rintro ⟨s, t, hst⟩
    rcases List.append_eq_nil.mp hst with ⟨h1, _⟩
    rcases List.append_eq_nil.mp h1 with ⟨_, hp⟩
    rw [hp] at h
    simp [firstAt, beginsWith] at h
  | cons c cs ih =>
    intro h
    have hb : beginsWith pat (c :: cs) = false := by
      by_contra hbt
      have : beginsWith pat (c :: cs) = true := by
        revert hbt; cases beginsWith pat (c :: cs) <;> simp
      rw [firstAt_of_beginsWith _ _ this] at h
      cases h
    rw [firstAt, if_neg (by simp [hb])] at h
    have hcs : firstAt pat cs = none := by
      cases hfa : firstAt pat cs
      · rfl
      · rw [hfa] at h; cases h
    rintro ⟨s, t, hst⟩
    cases s with
    | nil =>
      have : pat <+: c :: cs := ⟨t, by simpa using hst⟩
      rw [(beginsWith_iff _ _).mpr this] at hb
      cases hb
    | cons e s' =>
      have : e :: (s' ++ pat ++ t) = c :: cs := by simpa using hst
      have hcs' : s' ++ pat ++ t = cs := (List.cons.injEq _ _ _ _).mp this |>.2
      exact ih hcs ⟨s', t, hcs'⟩

theorem beginsWith_congr (pat x y : List Char) (n : Nat) (hn : pat.length ≤ n)
    (h : x.take n = y.take n) : beginsWith pat x = beginsWith pat y := by
  have hx : x.take pat.length = y.take pat.length := by
    have h2 := congrArg (fun l => l.take pat.length) h
    simpa [List.take_take, Nat.min_eq_left hn] using h2
  cases hby : beginsWith pat y
  · cases hbx : beginsWith pat x
    · rfl
    · exfalso
      have hp : pat = x.take pat.length :=
        List.prefix_iff_eq_take.mp ((beginsWith_iff _ _).mp hbx)
      have : pat <+: y := List.prefix_iff_eq_take.mpr (hp.trans hx)
      rw [(beginsWith_iff _ _).mpr this] at hby
      cases hby
  · have hp : pat = y.take pat.length :=
      List.prefix_iff_eq_take.mp ((beginsWith_iff _ _).mp hby)
    have : pat <+: x := List.prefix_iff_eq_take.mpr (hp.trans hx.symm)
    rw [(beginsWith_iff _ _).mpr this]

/-- Transfer of the first occurrence: two texts agreeing up to the end of the
first occurrence of `pat` have the same first occurrence. -/
theorem firstAt_congr (pat : List Char) :
    ∀ x y u, firstAt pat x = some u →
      x.take (u.length + pat.length) = y.take (u.length + pat.length) →
      firstAt pat y = some u := by
  intro x
  induction x with
  | nil =>
    intro y u h htake
    by_cases hb : beginsWith pat [] = true
    · simp only [firstAt, if_pos hb, Option.some.injEq] at h
      have hp : pat = [] := List.eq_nil_of_prefix_nil ((beginsWith_iff _ _).mp hb)
      have : beginsWith pat y = true := by
        rw [hp]; cases y <;> rfl
      rw [firstAt_of_beginsWith _ _ this, ← h]
    · simp [firstAt, hb] at h
  | cons c cs ih =>
    intro y u h htake
    by_cases hb : beginsWith pat (c :: cs) = true
    · simp only [firstAt, if_pos hb, Option.some.injEq] at h
      subst h
      have hby : beginsWith pat y = true := by
        rw [← beginsWith_congr pat (c :: cs) y (pat.length) le_rfl (by simpa using htake)]
        exact hb
      rw [firstAt_of_beginsWith _ _ hby]
    · simp only [firstAt, if_neg hb, Option.map_eq_some'] at h
      rcases h with ⟨u', hu', rfl⟩
      have hlen : 0 < (c :: u').length + pat.length := by simp
      cases y with
      | nil =>
        exfalso
        rw [List.take_nil] at htake
        have hlen2 := congrArg List.length htake
        simp [List.length_take] at hlen2
      | cons d ds =>
        have hcons : c :: cs.take (u'.length + pat.length) = d :: ds.take (u'.length + pat.length) := by
          have e1 : (c :: cs).take ((c :: u').length + pat.length)
              = c :: cs.take (u'.length + pat.length) := by
            simp [List.take_cons]
          have e2 : (d :: ds).take ((c :: u').length + pat.length)
              = d :: ds.take (u'.length + pat.length) := by
            simp [List.take_cons]
          rw [← e1, ← e2, htake]
        have hcd : c = d := ((List.cons.injEq _ _ _ _).mp hcons).1
        have htake' : cs.take (u'.length + pat.length) = ds.take (u'.length + pat.length) :=
          ((List.cons.injEq _ _ _ _).mp hcons).2
        have hbd : beginsWith pat (d :: ds) = false := by
          rw [← beginsWith_congr pat (c :: cs) (d :: ds) ((c :: u').length + pat.length)
            (Nat.le_add_left pat.length _) htake]
          simpa using hb
        rw [firstAt, if_neg (by simp [hbd]), ih ds u' hu' htake', hcd]
        rfl

/-- On separator-free text a match's value run extends to the end of the
string, so one pass rewrites everything from the first `field=` on. -/
theorem subst_sepFree_some (field red sep : List Char) :
    ∀ m u, (∀ c ∈ m, c ∉ sep) → firstAt (field ++ ['=']) m = some u →
      subst field red sep m = u ++ (field ++ '=' :: red) := by
  intro m
  induction m with
  | nil =>
    intro u _ h
    rw [firstAt, if_neg (by simp [beginsWith_pat_nil field])] at h
    cases h
  | cons c cs ih =>
    intro u hm h
    by_cases hb : beginsWith (field ++ ['=']) (c :: cs) = true
    · rw [firstAt_of_beginsWith _ _ hb] at h
      injection h with h
      subst h
      rw [subst_cons_pos _ _ _ _ _ hb]
      have hdv : dropValue sep (cs.drop field.length) = [] :=
        dropValue_sepFree_nil sep _ (fun d hd => hm d (by
          simp [List.mem_of_mem_drop hd]))
      rw [hdv, subst_nil]
      simp
    · have hbf : beginsWith (field ++ ['=']) (c :: cs) = false := by simpa using hb
      rw [firstAt, if_neg hb, Option.map_eq_some'] at h
      rcases h with ⟨u', hu', huu⟩
      rw [subst_cons_neg _ _ _ _ _ hbf, ih u' (fun d hd => hm d (by simp [hd])) hu', ← huu]
      rfl

theorem subst_mem_sepFree (field red sep m : List Char)
    (hm : ∀ c ∈ m, c ∉ sep) (hf : ∀ c ∈ field, c ∉ sep) (hr : ∀ c ∈ red, c ∉ sep)
    (he : '=' ∉ sep) : ∀ c ∈ subst field red sep m, c ∉ sep := by
  cases hfa : firstAt (field ++ ['=']) m with
  | none =>
    rw [subst_no_occ _ _ _ _ (firstAt_none_no_occ _ m hfa)]
    exact hm
  | some u =>
    rw [subst_sepFree_some _ _ _ m u hm hfa]
    intro c hc
    rcases firstAt_some_decomp _ m u hfa with ⟨v, hv⟩
    rcases List.mem_append.mp hc with hc | hc
    · exact hm c (by rw [hv]; simp [hc])
    · rcases List.mem_append.mp hc with hc | hc
      · exact hf c hc
      · rcases List.mem_cons.mp hc with hc | hc
        · rw [hc]; exact he
        · exact hr c hc

theorem take_append_of_le_len (a b : List Char) (n : Nat) (h : n ≤ a.length) :
    (a ++ b).take n = a.take n := by
  rw [List.take_append_eq_append_take, Nat.sub_eq_zero_of_le h, List.take_zero,
    List.append_nil]

theorem take_len_prefix (u pat v : List Char) :
    (u ++ pat ++ v).take (u.length + pat.length) = u ++ pat := by
  have hl : (u ++ pat).length = u.length + pat.length := List.length_append _ _
  rw [← hl, List.take_left]

/-- Single-field idempotence on separator-free text. -/
theorem subst_idem_sepFree (field red sep m : List Char)
    (hm : ∀ c ∈ m, c ∉ sep) (hf : ∀ c ∈ field, c ∉ sep) (hr : ∀ c ∈ red, c ∉ sep)
    (he : '=' ∉ sep) :
    subst field red sep (subst field red sep m) = subst field red sep m := by
  cases hfa : firstAt (field ++ ['=']) m with
  | none =>
    have h := subst_no_occ field red sep m (firstAt_none_no_occ _ m hfa)
    rw [h]
    exact h
  | some u =>
    have h1 : subst field red sep m = u ++ (field ++ '=' :: red) :=
      subst_sepFree_some _ _ _ m u hm hfa
    rcases firstAt_some_decomp _ m u hfa with ⟨v, hv⟩
    have htk : m.take (u.length + (field ++ ['=']).length)
        = (u ++ (field ++ '=' :: red)).take (u.length + (field ++ ['=']).length) := by
      rw [hv, take_len_prefix,
        show u ++ (field ++ '=' :: red) = u ++ (field ++ ['=']) ++ red from by simp,
        take_len_prefix]
    have h2 : firstAt (field ++ ['=']) (u ++ (field ++ '=' :: red)) = some u :=
      firstAt_congr _ m _ u hfa htk
    have hm2 : ∀ c ∈ u ++ (field ++ '=' :: red), c ∉ sep := by
      rw [← h1]
      exact subst_mem_sepFree _ _ _ _ hm hf hr he
    rw [h1, subst_sepFree_some _ _ _ _ u hm2 h2]

/-- When every `f=` occurrence of `z` starts no earlier than the end of the
first `g=` occurrence, rewriting for `f` does not disturb the first `g=`
occurrence: the subsequent `g` pass still rewrites at the same spot. -/
theorem subst_subst_far (g f red sep z u : List Char)
    (hz : ∀ c ∈ z, c ∉ sep) (hf : ∀ c ∈ f, c ∉ sep) (hr : ∀ c ∈ red, c ∉ sep)
    (he : '=' ∉ sep)
    (hgz : firstAt (g ++ ['=']) z = some u)
    (hfar : ∀ q, firstAt (f ++ ['=']) z = some q →
      u.length + (g ++ ['=']).length ≤ q.length + (f ++ ['=']).length) :
    subst g red sep (subst f red sep z) = u ++ (g ++ '=' :: red) := by
  cases hfz : firstAt (f ++ ['=']) z with
  | none =>
    rw [subst_no_occ _ _ _ z (firstAt_none_no_occ _ z hfz)]
    exact subst_sepFree_some _ _ _ z u hz hgz
  | some q =>
    have hL := hfar q hfz
    have hsub : subst f red sep z = q ++ (f ++ '=' :: red) :=
      subst_sepFree_some _ _ _ z q hz hfz
    rcases firstAt_some_decomp _ z q hfz with ⟨v, hv⟩
    have htk : z.take (u.length + (g ++ ['=']).length)
        = (q ++ (f ++ '=' :: red)).take (u.length + (g ++ ['=']).length) := by
      have hlen' : u.length + (g ++ ['=']).length ≤ (q ++ (f ++ ['='])).length := by
        simp only [List.length_append, List.length_cons]
        simp at hL
        omega
      rw [hv, show q ++ (f ++ '=' :: red) = (q ++ (f ++ ['='])) ++ red from by simp]
      rw [take_append_of_le_len _ v _ hlen', take_append_of_le_len _ red _ hlen']
    have h2 : firstAt (g ++ ['=']) (q ++ (f ++ '=' :: red)) = some u :=
      firstAt_congr _ z _ u hgz htk
    have hm2 : ∀ c ∈ subst f red sep z, c ∉ sep := subst_mem_sepFree _ _ _ _ hz hf hr he
    rw [hsub] at hm2
    rw [hsub]
    exact subst_sepFree_some _ _ _ _ u hm2 h2

/-- Congruence on separator-free text: texts with the same `g`-redaction keep
the same `g`-redaction after any further single-field pass. -/
theorem subst_congr_step (g f red sep x y : List Char)
    (hx : ∀ c ∈ x, c ∉ sep) (hy : ∀ c ∈ y, c ∉ sep)
    (hf : ∀ c ∈ f, c ∉ sep) (hr : ∀ c ∈ red, c ∉ sep) (he : '=' ∉ sep)
    (h : subst g red sep x = subst g red sep y) :
    subst g red sep (subst f red sep x) = subst g red sep (subst f red sep y) := by
  cases hgx : firstAt (g ++ ['=']) x with
  | none =>
    cases hgy : firstAt (g ++ ['=']) y with
    | none =>
      have ex := subst_no_occ g red sep x (firstAt_none_no_occ _ x hgx)
      have ey := subst_no_occ g red sep y (firstAt_none_no_occ _ y hgy)
      rw [ex, ey] at h
      rw [h]
    | some uy =>
      exfalso
      have ex := subst_no_occ g red sep x (firstAt_none_no_occ _ x hgx)
      have ey := subst_sepFree_some g red sep y uy hy hgy
      rw [ex, ey] at h
      exact firstAt_none_no_occ _ x hgx ⟨uy, red, by rw [h]; simp⟩
  | some ux =>
    cases hgy : firstAt (g ++ ['=']) y with
    | none =>
      exfalso
      have ex := subst_sepFree_some g red sep x ux hx hgx
      have ey := subst_no_occ g red sep y (firstAt_none_no_occ _ y hgy)
      rw [ex, ey] at h
      exact firstAt_none_no_occ _ y hgy ⟨ux, red, by rw [← h]; simp⟩
    | some uy =>
      have ex := subst_sepFree_some g red sep x ux hx hgx
      have ey := subst_sepFree_some g red sep y uy hy hgy
      have hu : ux = uy := by
        rw [ex, ey] at h
        have hlen : ux.length = uy.length := by
          have h2 := congrArg List.length h
          simp at h2
          omega
        exact List.append_inj_left h hlen
      subst hu
      have hxyL : x.take (ux.length + (g ++ ['=']).length)
          = y.take (ux.length + (g ++ ['=']).length) := by
        rcases firstAt_some_decomp _ x ux hgx with ⟨vx, hvx⟩
        rcases firstAt_some_decomp _ y ux hgy with ⟨vy, hvy⟩
        rw [hvx, hvy, take_len_prefix, take_len_prefix]
      by_cases hshort : ∃ qx, firstAt (f ++ ['=']) x = some qx
          ∧ qx.length + (f ++ ['=']).length ≤ ux.length + (g ++ ['=']).length
      · rcases hshort with ⟨qx, hfx, hle⟩
        have hfy : firstAt (f ++ ['=']) y = some qx := by
          apply firstAt_congr _ x y qx hfx
          have h2 := congrArg (fun l => l.take (qx.length + (f ++ ['=']).length)) hxyL
          simp only [List.take_take] at h2
          rw [Nat.min_eq_left hle] at h2
          exact h2
        rw [subst_sepFree_some f red sep x qx hx hfx, subst_sepFree_some f red sep y qx hy hfy]
      · have hfarx : ∀ q, firstAt (f ++ ['=']) x = some q →
            ux.length + (g ++ ['=']).length ≤ q.length + (f ++ ['=']).length := by
          intro q hq
          by_contra hlt
          exact hshort ⟨q, hq, by omega⟩
        have hfary : ∀ q, firstAt (f ++ ['=']) y = some q →
            ux.length + (g ++ ['=']).length ≤ q.length + (f ++ ['=']).length := by
          intro q hq
          by_contra hlt
          have hle : q.length + (f ++ ['=']).length ≤ ux.length + (g ++ ['=']).length := by
            omega
          have hfx : firstAt (f ++ ['=']) x = some q := by
            apply firstAt_congr _ y x q hq
            have h2 := congrArg (fun l => l.take (q.length + (f ++ ['=']).length)) hxyL.symm
            simp only [List.take_take] at h2
            rw [Nat.min_eq_left hle] at h2
            exact h2
          exact hshort ⟨q, hfx, hle⟩
        rw [subst_subst_far g f red sep x ux hx hf hr he hgx hfarx,
          subst_subst_far g f red sep y ux hy hf hr he hgy hfary]

theorem filter_datum_cons (f : List Char) (fs : List (List Char)) (red msg sep : List Char) :
    filter_datum (f :: fs) red msg sep = filter_datum fs red (subst f red sep msg) sep := rfl

theorem filter_datum_mem_sepFree (red sep : List Char) (hr : ∀ c ∈ red, c ∉ sep)
    (he : '=' ∉ sep) :
    ∀ (fields : List (List Char)) (msg : List Char),
      (∀ f ∈ fields, ∀ c ∈ f, c ∉ sep) → (∀ c ∈ msg, c ∉ sep) →
      ∀ c ∈ filter_datum fields red msg sep, c ∉ sep := by
  intro fields
  induction fields with
  | nil => intro msg _ hm; exact hm
  | cons f fs ih =>
    intro msg hfs hm
    rw [filter_datum_cons]
    exact ih _ (fun g hg => hfs g (by simp [hg]))
      (subst_mem_sepFree f red sep msg hm (hfs f (by simp)) hr he)

theorem subst_congr_chain (g red sep : List Char) (hr : ∀ c ∈ red, c ∉ sep)
    (he : '=' ∉ sep) :
    ∀ (D : List (List Char)) (x y : List Char),
      (∀ f ∈ D, ∀ c ∈ f, c ∉ sep) → (∀ c ∈ x, c ∉ sep) → (∀ c ∈ y, c ∉ sep) →
      subst g red sep x = subst g red sep y →
      subst g red sep (filter_datum D red x sep)
        = subst g red sep (filter_datum D red y sep) := by
  intro D
  induction D with
  | nil => intro x y _ _ _ h; exact h
  | cons f fs ih =>
    intro x y hD hx hy h
    rw [filter_datum_cons, filter_datum_cons]
    exact ih _ _ (fun q hq => hD q (by simp [hq]))
      (subst_mem_sepFree f red sep x hx (hD f (by simp)) hr he)
      (subst_mem_sepFree f red sep y hy (hD f (by simp)) hr he)
      (subst_congr_step g f red sep x y hx hy (hD f (by simp)) hr he h)

/-- A field already in the list is absorbed: pre-passing it once more does not
change the outcome of the full pass (separator-free text). -/
theorem filter_datum_absorb (red sep : List Char) (hr : ∀ c ∈ red, c ∉ sep)
    (he : '=' ∉ sep) (fields : List (List Char)) (g : List Char) (hg : g ∈ fields)
    (hfs : ∀ f ∈ fields, ∀ c ∈ f, c ∉ sep)
    (x : List Char) (hx : ∀ c ∈ x, c ∉ sep) :
    filter_datum fields red (subst g red sep x) sep = filter_datum fields red x sep := by
  have hgsf : ∀ c ∈ g, c ∉ sep := hfs g hg
  rcases List.append_of_mem hg with ⟨A, B, rfl⟩
  have hfold : ∀ z, filter_datum (A ++ g :: B) red z sep
      = filter_datum B red (subst g red sep (filter_datum A red z sep)) sep := by
    intro z
    unfold filter_datum
    rw [List.foldl_append]
    rfl
  rw [hfold, hfold]
  have hc : subst g red sep (filter_datum A red (subst g red sep x) sep)
      = subst g red sep (filter_datum A red x sep) :=
    subst_congr_chain g red sep hr he A _ _ (fun f hf => hfs f (by simp [hf]))
      (subst_mem_sepFree g red sep x hx hgsf hr he) hx
      (subst_idem_sepFree g red sep x hx hgsf hr he)
  rw [hc]

/-- Idempotence of the full multi-field pass on separator-free text. -/
theorem filter_idem_sepFree (red sep : List Char) (hr : ∀ c ∈ red, c ∉ sep)
    (he : '=' ∉ sep) (fields : List (List Char))
    (hfs : ∀ f ∈ fields, ∀ c ∈ f, c ∉ sep) :
    ∀ (G : List (List Char)), (∀ g ∈ G, g ∈ fields) →
      ∀ x, (∀ c ∈ x, c ∉ sep) →
      filter_datum fields red (filter_datum G red x sep) sep
        = filter_datum fields red x sep := by
  intro G
  induction G with
  | nil => intro _ x _; rfl
  | cons g G' ih =>
    intro hG x hx
    rw [filter_datum_cons]
    rw [ih (fun q hq => hG q (by simp [hq])) (subst g red sep x)
      (subst_mem_sepFree g red sep x hx (hfs g (hG g (by simp))) hr he)]
    exact filter_datum_absorb red sep hr he fields g (hG g (by simp)) hfs x hx

theorem beginsWith_seg (sep : List Char) (s : Char) (hs : s ∈ sep) :
    ∀ (pat : List Char), (∀ c ∈ pat, c ∉ sep) →
      ∀ a b, beginsWith pat (a ++ s :: b) = beginsWith pat a := by
  intro pat
  induction pat with
  | nil => intro _ a b; rfl
  | cons p ps ih =>
    intro hpat a b
    cases a with
    | nil =>
      have hps : p ≠ s := fun h => (hpat p (by simp)) (h ▸ hs)
      simp [beginsWith, hps]
    | cons c a' =>
      by_cases hpc : p = c
      · simp only [List.cons_append, beginsWith, if_pos hpc]
        exact ih (fun d hd => hpat d (by simp [hd])) a' b
      · simp only [List.cons_append, beginsWith, if_neg hpc]

/-- One pass distributes over a separator occurrence (the pattern cannot
straddle a separator when the field is separator-free). -/
theorem subst_seg (field red sep : List Char) (s : Char) (b : List Char)
    (hf : ∀ c ∈ field, c ∉ sep) (he : '=' ∉ sep) (hs : s ∈ sep) :
    ∀ a, (∀ c ∈ a, c ∉ sep) →
      subst field red sep (a ++ s :: b)
        = subst field red sep a ++ s :: subst field red sep b := by
  have hpat : ∀ c ∈ field ++ ['='], c ∉ sep := by
    intro c hc
    rcases List.mem_append.mp hc with hc | hc
    · exact hf c hc
    · simp at hc; rw [hc]; exact he
  have hbsb : beginsWith (field ++ ['=']) (s :: b) = false := by
    have h := beginsWith_seg sep s hs (field ++ ['=']) hpat [] b
    simpa [beginsWith_pat_nil] using h
  intro a
  induction a with
  | nil =>
    intro _
    show subst field red sep (s :: b) = subst field red sep [] ++ s :: subst field red sep b
    rw [subst_nil, subst_cons_neg _ _ _ _ _ hbsb]
    rfl
  | cons c a' ih =>
    intro ha
    by_cases hb : beginsWith (field ++ ['=']) (c :: a') = true
    · have hb' : beginsWith (field ++ ['=']) (c :: (a' ++ s :: b)) = true := by
        have h := beginsWith_seg sep s hs (field ++ ['=']) hpat (c :: a') b
        rw [show (c :: a') ++ s :: b = c :: (a' ++ s :: b) from rfl] at h
        rw [h]
        exact hb
      have hplen : field.length ≤ a'.length := by
        rcases (beginsWith_iff _ _).mp hb with ⟨t, ht⟩
        have h2 := congrArg List.length ht
        simp at h2
        omega
      rw [show (c :: a') ++ s :: b = c :: (a' ++ s :: b) from rfl,
        subst_cons_pos _ _ _ _ _ hb', subst_cons_pos _ _ _ _ _ hb]
      have hdl : (a' ++ s :: b).drop field.length = a'.drop field.length ++ s :: b := by
        rw [List.drop_append_eq_append_drop, Nat.sub_eq_zero_of_le hplen, List.drop_zero]
      have hdropfree : ∀ d ∈ a'.drop field.length, d ∉ sep :=
        fun d hd => ha d (by simp [List.mem_of_mem_drop hd])
      rw [hdl, dropValue_append_sepFree sep _ _ hdropfree, dropValue_cons_mem sep b s hs,
        dropValue_sepFree_nil sep (a'.drop field.length) hdropfree, subst_nil,
        subst_cons_neg _ _ _ _ _ hbsb]
      simp
    · have hbf : beginsWith (field ++ ['=']) (c :: a') = false := by simpa using hb
      have hbf' : beginsWith (field ++ ['=']) (c :: (a' ++ s :: b)) = false := by
        have h := beginsWith_seg sep s hs (field ++ ['=']) hpat (c :: a') b
        rw [show (c :: a') ++ s :: b = c :: (a' ++ s :: b) from rfl] at h
        rw [h]
        exact hbf
      rw [show (c :: a') ++ s :: b = c :: (a' ++ s :: b) from rfl,
        subst_cons_neg _ _ _ _ _ hbf', subst_cons_neg _ _ _ _ _ hbf,
        ih (fun d hd => ha d (by simp [hd]))]
      rfl

theorem filter_datum_seg (red sep : List Char) (hr : ∀ c ∈ red, c ∉ sep)
    (he : '=' ∉ sep) (s : Char) (hs : s ∈ sep) :
    ∀ (fields : List (List Char)), (∀ f ∈ fields, ∀ c ∈ f, c ∉ sep) →
      ∀ a b, (∀ c ∈ a, c ∉ sep) →
      filter_datum fields red (a ++ s :: b) sep
        = filter_datum fields red a sep ++ s :: filter_datum fields red b sep := by
  intro fields
  induction fields with
  | nil => intro _ a b _; rfl
  | cons f fs ih =>
    intro hfs a b ha
    rw [filter_datum_cons, subst_seg f red sep s b (hfs f (by simp)) he hs a ha,
      ih (fun g hg => hfs g (by simp [hg])) _ _
        (subst_mem_sepFree f red sep a ha (hfs f (by simp)) hr he),
      filter_datum_cons, filter_datum_cons]

theorem sep_split (sep : List Char) : ∀ m : List Char,
    (∀ c ∈ m, c ∉ sep)
      ∨ ∃ a s b, m = a ++ s :: b ∧ (∀ c ∈ a, c ∉ sep) ∧ s ∈ sep := by
  intro m
  induction m with
  | nil => left; simp
  | cons c m' ih =>
    by_cases hc : c ∈ sep
    · right
      exact ⟨[], c, m', by simp, by simp, hc⟩
    · rcases ih with h | ⟨a, s, b, rfl, ha, hs⟩
      · left
        intro d hd
        rcases List.mem_cons.mp hd with hd | hd
        · rw [hd]; exact hc
        · exact h d hd
      · right
        refine ⟨c :: a, s, b, by simp, ?_, hs⟩
        intro d hd
        rcases List.mem_cons.mp hd with hd | hd
        · rw [hd]; exact hc
        · exact ha d hd

/-- C4 counterexample.  The claim's precondition ("the redaction contains no
field name followed by `=`") does not ensure idempotence: with field list
`["a"]`, redaction `"x;y"` (which contains no `a=`) and separator `";"`, one
pass maps `a=1` to `a=x;y`, but a second pass maps `a=x;y` to `a=x;y;y`. -/
theorem filter_datum_not_idempotent_sep_in_redaction :
    (¬ (str "a" ++ ['=']) <:+: str "x;y")
      ∧ filter_datum [str "a"] (str "x;y") (str "a=1") (str ";") = str "a=x;y"
      ∧ filter_datum [str "a"] (str "x;y")
          (filter_datum [str "a"] (str "x;y") (str "a=1") (str ";")) (str ";")
          = str "a=x;y;y"
      ∧ str "a=x;y;y" ≠ str "a=x;y" := by
  refine ⟨by decide, by decide, by decide, by decide⟩

/-- C4 amended.  Redaction is idempotent under the spec's precondition
strengthened by separator-disjointness: whenever the redaction contains no
occurrence of any field name followed by `=` (the spec's condition), *and*
the redaction contains no separator character, *and* no field name contains a
separator character, *and* `=` is not a separator character, a second
application of `filter_datum` leaves the result unchanged.  Without the added
conditions idempotence fails (see the counterexample, and e.g. fields
`["a;", "a"]` on `a=;=` for a separator-bearing field name).  The statement
is scoped to the regex-faithful fragment — regex-literal fields, a nonempty
plain-class separator, a backslash-free redaction — since outside it the
spliced pattern changes meaning (fields like `a|b` make even one pass behave
differently) or raises `re.error`. -/
theorem filter_datum_idem (fields : List (List Char)) (red m sep : List Char)
    (hfields : ∀ f ∈ fields, ∀ c ∈ f, c ∉ sep)
    (hred : ∀ c ∈ red, c ∉ sep)
    (heq : '=' ∉ sep)
    (_hfsafe : ∀ f ∈ fields, ∀ c ∈ f, regexLiteralChar c = true)
    (_hsepne : sep ≠ [])
    (_hsepc : ∀ c ∈ sep, classLiteralChar c = true)
    (_hredsafe : '\\' ∉ red)
    (_hspec : ∀ f ∈ fields, ¬ (f ++ ['=']) <:+: red) :
    filter_datum fields red (filter_datum fields red m sep) sep
      = filter_datum fields red m sep := by
  suffices H : ∀ n (m' : List Char), m'.length ≤ n →
      filter_datum fields red (filter_datum fields red m' sep) sep
        = filter_datum fields red m' sep by
    exact H m.length m le_rfl
  intro n
  induction n with
  | zero =>
    intro m' hm'
    rw [List.length_eq_zero.mp (Nat.le_zero.mp hm')]
    exact filter_idem_sepFree red sep hred heq fields hfields fields
      (fun g hg => hg) [] (by simp)
  | succ n ih =>
    intro m' hm'
    rcases sep_split sep m' with hfree | ⟨a, s, b, rfl, ha, hs⟩
    · exact filter_idem_sepFree red sep hred heq fields hfields fields
        (fun g hg => hg) m' hfree
    · have hblen : b.length ≤ n := by
        simp [List.length_append] at hm'
        omega
      rw [filter_datum_seg red sep hred heq s hs fields hfields a b ha]
      have hfa : ∀ c ∈ filter_datum fields red a sep, c ∉ sep :=
        filter_datum_mem_sepFree red sep hred heq fields a hfields ha
      rw [filter_datum_seg red sep hred heq s hs fields hfields _ _ hfa]
      rw [filter_idem_sepFree red sep hred heq fields hfields fields
        (fun g hg => hg) a ha]
      rw [ih b hblen]

theorem filter_datum_idem_witness :
    filter_datum [str "name", str "ssn"] (str "***")
        (filter_datum [str "name", str "ssn"] (str "***")
          (str "name=Jane;ssn=123;x=1") (str ";")) (str ";")
      = filter_datum [str "name", str "ssn"] (str "***")
          (str "name=Jane;ssn=123;x=1") (str ";") :=
  filter_datum_idem [str "name", str "ssn"] (str "***") (str "name=Jane;ssn=123;x=1")
    (str ";") (by decide) (by decide) (by decide) (by decide) (by decide) (by decide)
    (by decide) (by decide)

end FilteredLogger
